import Mathlib

/-!
# Verification development for `script.js`

A shallow embedding of the behaviour layer of the portfolio page: the
`Utils.debounce` and `Utils.throttle` wrappers and the `TypingEffect` tick
chain over a virtual timer queue, the `ThemeController` over an explicit
key-value store, the trail easing step of `MouseTracker` and the tilt of
`CardEffects` in exact rational arithmetic, and the scroll coalescing of
`AnimationController` as a state machine.
-/

namespace Script

/-! ## Virtual timer queue (`setTimeout` / `clearTimeout`) -/

/-- A pending timer: the handle `setTimeout` returned, the virtual time (ms)
at which it becomes due, and the callback (a defunctionalised closure). -/
structure Timer (κ : Type) where
  id : Nat
  due : Nat
  cb : κ
  deriving DecidableEq, Repr

/-- The host: a virtual clock in ms, the next timer handle, the pending timers in
the order they were set, and the state `σ` the closures of a component share. -/
structure World (κ σ : Type) where
  now : Nat
  nextId : Nat
  timers : List (Timer κ)
  st : σ
  deriving DecidableEq, Repr

/-- The host at page start: clock 0, no timer pending, handles start at 1. -/
def World.init {κ σ : Type} (s : σ) : World κ σ :=
  { now := 0, nextId := 1, timers := [], st := s }

/-- The call `setTimeout(cb, delay)`: queues the callback at `now + delay` and
returns the new handle. -/
def setTimeout {κ σ : Type} (cb : κ) (delay : Nat) (w : World κ σ) : Nat × World κ σ :=
  (w.nextId,
    { w with nextId := w.nextId + 1,
             timers := w.timers ++ [{ id := w.nextId, due := w.now + delay, cb := cb }] })

/-- The call `clearTimeout(h)`: `none` stands for `undefined`, which clears
nothing, as does the handle of a timer that has already run. -/
def clearTimeout {κ σ : Type} (h : Option Nat) (w : World κ σ) : World κ σ :=
  match h with
  | none => w
  | some i => { w with timers := w.timers.filter (fun t => t.id != i) }

/-- The timer that runs next: the least due time, the earliest set among equals. -/
def earliest {κ : Type} : List (Timer κ) → Option (Timer κ)
  | [] => none
  | t :: ts =>
    match earliest ts with
    | none => some t
    | some u => if t.due ≤ u.due then some t else some u

/-- Runs the event loop up to virtual time `horizon`: every timer due by then
runs, in due order, with the clock at its due time. `handler` is the body of the
callbacks. The result is `none` when `fuel` callbacks have run and one is still due. -/
def advanceTo {κ σ : Type} (handler : κ → World κ σ → World κ σ) :
    Nat → Nat → World κ σ → Option (World κ σ)
  | fuel, horizon, w =>
    match earliest w.timers with
    | none => some { w with now := max w.now horizon }
    | some t =>
      if t.due ≤ horizon then
        match fuel with
        | 0 => none
        | fuel + 1 =>
          advanceTo handler fuel horizon
            (handler t.cb { w with now := max w.now t.due,
                                   timers := w.timers.filter (fun u => u.id != t.id) })
      else some { w with now := max w.now horizon }

/-- A trace of calls to one wrapper: each call `(t, args)` is made at virtual time
`t`, after the timers due by `t` have run. -/
def runCalls {κ σ α : Type} (handler : κ → World κ σ → World κ σ)
    (wrapper : α → World κ σ → World κ σ) (fuel : Nat) :
    List (Nat × α) → World κ σ → Option (World κ σ)
  | [], w => some w
  | (t, a) :: cs, w =>
    match advanceTo handler fuel t w with
    | none => none
    | some w1 => runCalls handler wrapper fuel cs (wrapper a w1)

/-! ## `Utils.debounce` -/

/-- The closure state of one `debounce` wrapper: the variable `timeout`
(`none` is `undefined`), the state `func` acts on, and the record of the
invocations of `func` (time, arguments). -/
structure DebounceState (α υ : Type) where
  timeout : Option Nat
  user : υ
  log : List (Nat × α)
  deriving DecidableEq, Repr

/-- The closure `later` of `executedFunction(...args)`, holding its `args`. -/
inductive DebounceCb (α : Type) where
  | later (args : α)
  deriving DecidableEq, Repr

/-- The invocation `func(...args)`, recorded with the current time. -/
def invokeDebounced {α υ : Type} (func : α → υ → υ) (args : α)
    (w : World (DebounceCb α) (DebounceState α υ)) : World (DebounceCb α) (DebounceState α υ) :=
  { w with st := { w.st with user := func args w.st.user, log := w.st.log ++ [(w.now, args)] } }

/-- The body of `later`: `clearTimeout(timeout); func(...args);`. -/
def Debounce.later {α υ : Type} (func : α → υ → υ) :
    DebounceCb α → World (DebounceCb α) (DebounceState α υ) →
      World (DebounceCb α) (DebounceState α υ)
  | .later args, w => invokeDebounced func args (clearTimeout w.st.timeout w)

/-- The body of `executedFunction(...args)`:
`clearTimeout(timeout); timeout = setTimeout(later, wait);`. -/
def Debounce.executedFunction {α υ : Type} (wait : Nat) (args : α)
    (w : World (DebounceCb α) (DebounceState α υ)) : World (DebounceCb α) (DebounceState α υ) :=
  let w1 := clearTimeout w.st.timeout w
  let r := setTimeout (DebounceCb.later args) wait w1
  { r.2 with st := { r.2.st with timeout := some r.1 } }

/-- The wrapper `debounce(func, wait)` on a trace of calls, then the event loop
run up to time `horizon`. -/
def Debounce.run {α υ : Type} (func : α → υ → υ) (wait fuel : Nat)
    (calls : List (Nat × α)) (horizon : Nat) (u0 : υ) :
    Option (World (DebounceCb α) (DebounceState α υ)) :=
  match runCalls (Debounce.later func) (Debounce.executedFunction wait) fuel calls
      (World.init { timeout := none, user := u0, log := [] }) with
  | none => none
  | some w => advanceTo (Debounce.later func) fuel horizon w

/-! ## `Utils.throttle` -/

/-- A closure variable that is `undefined` or holds a boolean. -/
abbrev JsFlag := Option Bool

/-- Truthiness of such a variable: `undefined` and `false` are falsy. -/
def JsFlag.truthy : JsFlag → Bool
  | none => false
  | some b => b

/-- The closure state of one `throttle` wrapper: the variable `inThrottle`
(`undefined` at first), the state `func` acts on, and the record of the
invocations of `func` (time, arguments), in the order `func` was entered. -/
structure ThrottleState (α υ : Type) where
  inThrottle : JsFlag
  user : υ
  log : List (Nat × α)
  deriving DecidableEq, Repr

/-- The only timer callback of `throttle`: `() => inThrottle = false`. -/
inductive ThrottleCb where
  | reset
  deriving DecidableEq, Repr

/-- The body of the timer callback: `inThrottle = false`. -/
def Throttle.reset {α υ : Type} :
    ThrottleCb → World ThrottleCb (ThrottleState α υ) → World ThrottleCb (ThrottleState α υ)
  | .reset, w => { w with st := { w.st with inThrottle := some false } }

/-- How one run of the wrapped function `func` ends, with the state it leaves:
it returns, it throws, or it moves its state to `u`, then calls the wrapper itself
with `inner` as its last action and ends as that call ends. -/
inductive Outcome (α υ : Type) where
  | returned (u : υ)
  | threw (u : υ)
  | reentered (u : υ) (inner : α)
  deriving DecidableEq, Repr

/-- A wrapped function that acts on its state and returns. -/
def returning {α υ : Type} (f : α → υ → υ) : α → υ → Outcome α υ :=
  fun a u => Outcome.returned (f a u)

/-- How a call ends: it returns, or an exception leaves it. -/
inductive Completion (ω : Type) where
  | normal (w : ω)
  | abrupt (w : ω)
  deriving DecidableEq, Repr

/-- The host after the call, however it ended. -/
def Completion.world {ω : Type} : Completion ω → ω
  | .normal w => w
  | .abrupt w => w

/-- The body of the wrapper:
`if (!inThrottle) { func.apply(context, args); inThrottle = true; setTimeout(reset, limit); }`.
The invocation is recorded when `func` is entered; the two statements after it run
only when `func` returns. `depth` is the room left on the call stack for calls of
the wrapper from inside `func`; with none left the call throws. -/
def Throttle.wrapper {α υ : Type} (func : α → υ → Outcome α υ) (limit : Nat) :
    Nat → α → World ThrottleCb (ThrottleState α υ) →
      Completion (World ThrottleCb (ThrottleState α υ))
  | depth, args, w =>
    if !w.st.inThrottle.truthy then
      let w1 : World ThrottleCb (ThrottleState α υ) :=
        { w with st := { w.st with log := w.st.log ++ [(w.now, args)] } }
      match func args w1.st.user with
      | .returned u =>
        let w2 : World ThrottleCb (ThrottleState α υ) :=
          { w1 with st := { w1.st with user := u, inThrottle := some true } }
        .normal (setTimeout ThrottleCb.reset limit w2).2
      | .threw u => .abrupt { w1 with st := { w1.st with user := u } }
      | .reentered u inner =>
        match depth with
        | 0 => .abrupt { w1 with st := { w1.st with user := u } }
        | d + 1 =>
          match Throttle.wrapper func limit d inner { w1 with st := { w1.st with user := u } } with
          | .normal w2 =>
            let w3 : World ThrottleCb (ThrottleState α υ) :=
              { w2 with st := { w2.st with inThrottle := some true } }
            .normal (setTimeout ThrottleCb.reset limit w3).2
          | .abrupt w2 => .abrupt w2
    else .normal w

/-- A call of the wrapper by the host (as an event listener): an exception that
leaves the wrapper is reported and the page goes on. -/
def Throttle.dispatch {α υ : Type} (func : α → υ → Outcome α υ) (limit depth : Nat) (args : α)
    (w : World ThrottleCb (ThrottleState α υ)) : World ThrottleCb (ThrottleState α υ) :=
  (Throttle.wrapper func limit depth args w).world

/-- The wrapper `throttle(func, limit)` on a trace of calls, then the event loop
run up to time `horizon`. -/
def Throttle.run {α υ : Type} (func : α → υ → Outcome α υ) (limit depth fuel : Nat)
    (calls : List (Nat × α)) (horizon : Nat) (u0 : υ) :
    Option (World ThrottleCb (ThrottleState α υ)) :=
  match runCalls Throttle.reset (Throttle.dispatch func limit depth) fuel calls
      (World.init { inThrottle := none, user := u0, log := [] }) with
  | none => none
  | some w => advanceTo Throttle.reset fuel horizon w

/-- The throttle contract in the words of the specification, as a function of
the trace: the first call invokes, a call made less than `limit` ms after the
last invoking call is dropped, the next call after that invokes again.
`last` is the time of the last invoking call. -/
def throttleSpec {α : Type} (limit : Nat) : Option Nat → List (Nat × α) → List (Nat × α)
  | _, [] => []
  | none, (t, a) :: cs => (t, a) :: throttleSpec limit (some t) cs
  | some l, (t, a) :: cs =>
    if t < l + limit then throttleSpec limit (some l) cs
    else (t, a) :: throttleSpec limit (some t) cs

/-- The invariant of a `throttle` wrapper between events, against the time `last`
of the last invoking call: `func` has acted once per recorded invocation, and
either no timer is pending, `inThrottle` is falsy and `limit` ms have passed since
`last`, or `inThrottle` is `true` and the one pending timer is due at `last + limit`. -/
def ThrottleInv {α υ : Type} (func : α → υ → υ) (limit : Nat) (u0 : υ)
    (w : World ThrottleCb (ThrottleState α υ)) (last : Option Nat) : Prop :=
  w.st.user = w.st.log.foldl (fun u e => func e.2 u) u0 ∧
    ((w.timers = [] ∧ w.st.inThrottle.truthy = false ∧
        ∀ l, last = some l → l + limit ≤ w.now) ∨
      (∃ id l, w.timers = [⟨id, l + limit, ThrottleCb.reset⟩] ∧
        w.st.inThrottle = some true ∧ last = some l ∧ l ≤ w.now))

/-! ## `ThemeController` -/

/-- The persistent store `localStorage`: keys with their values. -/
abbrev Storage := List (String × String)

/-- The call `localStorage.getItem(key)`: `none` is `null`. -/
def Storage.getItem (key : String) : Storage → Option String
  | [] => none
  | (k, v) :: rest => if k = key then some v else Storage.getItem key rest

/-- The call `localStorage.setItem(key, value)`: replaces the value of a key
that is present, adds the pair otherwise. -/
def Storage.setItem (key value : String) : Storage → Storage
  | [] => [(key, value)]
  | (k, v) :: rest =>
    if k = key then (k, value) :: rest else (k, v) :: Storage.setItem key value rest

/-- The expression `x || d` on a string or `null`: `null` and the empty string
are falsy. -/
def orDefault (x : Option String) (d : String) : String :=
  match x with
  | none => d
  | some s => if s = "" then d else s

/-- What a `ThemeController` reads and writes: its field `theme`, the class of
`document.body`, the text of `.theme-toggle-icon` (`none` when the page has no
such element) and `localStorage`. -/
structure ThemeController where
  theme : String
  bodyClass : String
  icon : Option String
  storage : Storage
  deriving DecidableEq, Repr

/-- The method `applyTheme()`. -/
def ThemeController.applyTheme (c : ThemeController) : ThemeController :=
  { c with
    bodyClass := if c.theme = "dark" then "dark-theme" else ""
    icon := c.icon.map (fun _ => if c.theme = "dark" then "☀️" else "🌙")
    storage := c.storage.setItem "theme" c.theme }

/-- The method `toggleTheme()`. -/
def ThemeController.toggleTheme (c : ThemeController) : ThemeController :=
  ThemeController.applyTheme { c with theme := if c.theme = "light" then "dark" else "light" }

/-- The constructor, on a page whose body has class `bodyClass`, whose icon
element has text `icon` and whose store is `storage`: reads the flag, then
`init()` applies it (`setupThemeToggle` only binds the click listener). -/
def ThemeController.new (bodyClass : String) (icon : Option String) (storage : Storage) :
    ThemeController :=
  ThemeController.applyTheme
    { theme := orDefault (storage.getItem "theme") "light"
      bodyClass := bodyClass
      icon := icon
      storage := storage }

/-- The state after `n` clicks on the toggle. -/
def ThemeController.toggles : Nat → ThemeController → ThemeController
  | 0, c => c
  | n + 1, c => ThemeController.toggles n c.toggleTheme

/-! ## `MouseTracker`: the trail easing step -/

/-- The variables of `bindEvents`, in exact arithmetic. -/
structure TrailState where
  mouseX : ℚ
  mouseY : ℚ
  trailX : ℚ
  trailY : ℚ
  deriving DecidableEq

/-- One run of `animateTrail`: `trailX += distX * 0.1; trailY += distY * 0.1`. -/
def animateTrail (s : TrailState) : TrailState :=
  let distX := s.mouseX - s.trailX
  let distY := s.mouseY - s.trailY
  { s with trailX := s.trailX + distX * (1 / 10), trailY := s.trailY + distY * (1 / 10) }

/-- The state after `n` frames with no `mousemove` in between. -/
def frames : Nat → TrailState → TrailState
  | 0, s => s
  | n + 1, s => frames n (animateTrail s)

/-- What the specification asks of one axis of the trail, at frame `n`: `p` is
the pointer coordinate, `t k` the eased coordinate after `k` frames. The distance
to the pointer is `0.9^n` times the initial one, it does not increase from one
frame to the next, it decreases strictly unless the trail started on the pointer,
it gets below every positive bound, and the trail stays on its side of the pointer. -/
def EasesToward (p : ℚ) (t : Nat → ℚ) (n : Nat) : Prop :=
  |p - t n| = (9 / 10) ^ n * |p - t 0| ∧
    |p - t (n + 1)| ≤ |p - t n| ∧
    (t 0 ≠ p → |p - t (n + 1)| < |p - t n|) ∧
    (∀ ε : ℚ, 0 < ε → ∃ N : Nat, ∀ m : Nat, N ≤ m → |p - t m| < ε) ∧
    SignType.sign (p - t n) = SignType.sign (p - t 0)

/-! ## `TypingEffect` -/

/-- A string as `charAt` sees it: a sequence of UTF-16 code units. -/
abbrev JsString := List Nat

/-- The call `s.charAt(i)`: the one-unit string at `i`, empty out of range. -/
def charAt (s : JsString) (i : Nat) : JsString :=
  match s.get? i with
  | some c => [c]
  | none => []

/-- The fields of a `TypingEffect` with the `textContent` of its element, and
the number of runs of `typing` so far. -/
structure TypingState where
  text : JsString
  speed : Nat
  index : Nat
  textContent : JsString
  ticks : Nat
  deriving DecidableEq, Repr

/-- The only timer callback of `TypingEffect`: the closure `typing`. -/
inductive TypingCb where
  | typing
  deriving DecidableEq, Repr

/-- The body of `typing`. -/
def TypingEffect.typing : TypingCb → World TypingCb TypingState → World TypingCb TypingState
  | .typing, w =>
    let w0 : World TypingCb TypingState := { w with st := { w.st with ticks := w.st.ticks + 1 } }
    if w0.st.index < w0.st.text.length then
      let w1 : World TypingCb TypingState :=
        { w0 with st := { w0.st with textContent := w0.st.textContent ++ charAt w0.st.text w0.st.index } }
      let w2 : World TypingCb TypingState := { w1 with st := { w1.st with index := w1.st.index + 1 } }
      (setTimeout TypingCb.typing w2.st.speed w2).2
    else w0

/-- The constructor `new TypingEffect(element, text, speed)`; `content` is the
text the element shows at that moment. -/
def TypingEffect.new (content text : JsString) (speed : Nat) : TypingState :=
  { text := text, speed := speed, index := 0, textContent := content, ticks := 0 }

/-- The method `start()`. -/
def TypingEffect.start (w : World TypingCb TypingState) : World TypingCb TypingState :=
  let w1 : World TypingCb TypingState := { w with st := { w.st with textContent := [] } }
  (setTimeout TypingCb.typing 500 w1).2

/-- Runs the next `k` timers that are pending (fewer when the queue empties),
each at its due time. -/
def runTicks {κ σ : Type} (handler : κ → World κ σ → World κ σ) : Nat → World κ σ → World κ σ
  | 0, w => w
  | k + 1, w =>
    match earliest w.timers with
    | none => w
    | some t =>
      runTicks handler k
        (handler t.cb { w with now := max w.now t.due,
                               timers := w.timers.filter (fun u => u.id != t.id) })

/-- A fresh `TypingEffect` on which `start()` has been called once, at time 0. -/
def TypingEffect.started (content text : JsString) (speed : Nat) : World TypingCb TypingState :=
  TypingEffect.start (World.init (TypingEffect.new content text speed))

/-! ## `CardEffects`: the tilt -/

/-- The fields of `getBoundingClientRect()` that the handler reads. -/
structure Rect where
  left : ℚ
  top : ℚ
  width : ℚ
  height : ℚ
  deriving DecidableEq

/-- The value written to `card.style.transform`: the arguments of
`perspective(..px) rotateX(..deg) rotateY(..deg) translateZ(..px)`. -/
structure Transform where
  perspective : ℚ
  rotateX : ℚ
  rotateY : ℚ
  translateZ : ℚ
  deriving DecidableEq

/-- The `mousemove` handler of `add3DEffect`, on a pointer at `(clientX, clientY)`. -/
def CardEffects.onMouseMove (rect : Rect) (clientX clientY : ℚ) : Transform :=
  let x := clientX - rect.left
  let y := clientY - rect.top
  let centerX := rect.width / 2
  let centerY := rect.height / 2
  let rotateX := (y - centerY) / 10
  let rotateY := (centerX - x) / 10
  { perspective := 1000, rotateX := rotateX, rotateY := rotateY, translateZ := 20 }

/-- The `mouseleave` handler of `add3DEffect`. -/
def CardEffects.onMouseLeave : Transform :=
  { perspective := 1000, rotateX := 0, rotateY := 0, translateZ := 0 }

/-! ## `AnimationController`: scroll coalescing -/

/-- The callbacks `addScrollEffects` hands to `requestAnimationFrame`. -/
inductive FrameCb where
  | updateScrollEffects
  deriving DecidableEq, Repr

/-- The closure variable `ticking`, the callbacks waiting for the next frame,
and the number of callbacks scheduled since the last frame. -/
structure ScrollState where
  ticking : Bool
  pending : List FrameCb
  scheduled : Nat
  deriving DecidableEq, Repr

/-- The two events of the machine. -/
inductive ScrollEvent where
  | scroll
  | frame
  deriving DecidableEq, Repr

/-- The state `addScrollEffects` sets up: `let ticking = false`. -/
def ScrollState.init : ScrollState :=
  { ticking := false, pending := [], scheduled := 0 }

/-- The body of `updateScrollEffects`: reads `window.scrollY`, then `ticking = false`. -/
def updateScrollEffects : FrameCb → ScrollState → ScrollState
  | .updateScrollEffects, s => { s with ticking := false }

/-- The scroll listener:
`if (!ticking) { requestAnimationFrame(updateScrollEffects); ticking = true; }`. -/
def onScroll (s : ScrollState) : ScrollState :=
  if !s.ticking then
    { s with pending := s.pending ++ [FrameCb.updateScrollEffects],
             scheduled := s.scheduled + 1,
             ticking := true }
  else s

/-- A frame: the callbacks that were waiting run in order, and none waits any more. -/
def onFrame (s : ScrollState) : ScrollState :=
  s.pending.foldl (fun acc cb => updateScrollEffects cb acc)
    { s with pending := [], scheduled := 0 }

/-- One event of the machine. -/
def ScrollState.step (s : ScrollState) : ScrollEvent → ScrollState
  | .scroll => onScroll s
  | .frame => onFrame s

/-- The state after a sequence of events. -/
def ScrollState.run (evs : List ScrollEvent) : ScrollState :=
  evs.foldl ScrollState.step ScrollState.init

/-! ## Theorems: `AnimationController` -/

/-- The two shapes the scroll machine can be in. -/
theorem scroll_shape (evs : List ScrollEvent) (s : ScrollState)
    (h : s = ⟨false, [], 0⟩ ∨ s = ⟨true, [FrameCb.updateScrollEffects], 1⟩) :
    evs.foldl ScrollState.step s = ⟨false, [], 0⟩ ∨
      evs.foldl ScrollState.step s = ⟨true, [FrameCb.updateScrollEffects], 1⟩ := by
  induction evs generalizing s with
  | nil => simpa using h
  | cons e es ih =>
    rw [List.foldl_cons]
    apply ih
    rcases h with h | h <;> subst h <;> cases e <;>
      simp [ScrollState.step, onScroll, onFrame, updateScrollEffects]

/-- C10: in every state the scroll machine reaches from `let ticking = false`, by
any interleaving of scroll events and frames, at most one `updateScrollEffects`
callback is pending, `ticking` is true exactly when one is pending, and at most
one callback has been scheduled since the last frame. -/
theorem scroll_coalescing (evs : List ScrollEvent) :
    (ScrollState.run evs).pending.length ≤ 1 ∧
      ((ScrollState.run evs).ticking = true ↔ (ScrollState.run evs).pending.length = 1) ∧
      (ScrollState.run evs).scheduled ≤ 1 := by
  have h := scroll_shape evs ScrollState.init (Or.inl rfl)
  unfold ScrollState.run
  rcases h with h | h <;> rw [h] <;> simp

/-! ## Theorems: `CardEffects` -/

/-- C9: the `mousemove` handler computes
`rotateX = ((clientY - top) - H/2) / 10` and `rotateY = (W/2 - (clientX - left)) / 10`,
and for a pointer at the exact centre of the card both are 0. -/
theorem tilt_rotation (rect : Rect) (clientX clientY : ℚ) :
    (CardEffects.onMouseMove rect clientX clientY).rotateX
        = ((clientY - rect.top) - rect.height / 2) / 10 ∧
      (CardEffects.onMouseMove rect clientX clientY).rotateY
        = (rect.width / 2 - (clientX - rect.left)) / 10 ∧
      (CardEffects.onMouseMove rect (rect.left + rect.width / 2)
        (rect.top + rect.height / 2)).rotateX = 0 ∧
      (CardEffects.onMouseMove rect (rect.left + rect.width / 2)
        (rect.top + rect.height / 2)).rotateY = 0 := by
  refine ⟨rfl, rfl, ?_, ?_⟩ <;> simp [CardEffects.onMouseMove]

/-! ## Theorems: `MouseTracker` -/

theorem frames_succ (n : Nat) (s : TrailState) :
    frames (n + 1) s = animateTrail (frames n s) := by
  induction n generalizing s with
  | zero => rfl
  | succ n ih =>
    show frames (n + 1) (animateTrail s) = _
    rw [ih (animateTrail s)]
    rfl

theorem frames_mouse (n : Nat) (s : TrailState) :
    (frames n s).mouseX = s.mouseX ∧ (frames n s).mouseY = s.mouseY := by
  induction n with
  | zero => exact ⟨rfl, rfl⟩
  | succ n ih =>
    rw [frames_succ]
    exact ih

theorem frames_dist (n : Nat) (s : TrailState) :
    s.mouseX - (frames n s).trailX = (9 / 10) ^ n * (s.mouseX - s.trailX) ∧
      s.mouseY - (frames n s).trailY = (9 / 10) ^ n * (s.mouseY - s.trailY) := by
  induction n with
  | zero => simp [frames]
  | succ n ih =>
    obtain ⟨hx, hy⟩ := ih
    obtain ⟨mx, my⟩ := frames_mouse n s
    rw [frames_succ]
    constructor
    · show s.mouseX - ((frames n s).trailX + ((frames n s).mouseX - (frames n s).trailX) * (1 / 10)) = _
      rw [mx, pow_succ]
      linear_combination (9 / 10 : ℚ) * hx
    · show s.mouseY - ((frames n s).trailY + ((frames n s).mouseY - (frames n s).trailY) * (1 / 10)) = _
      rw [my, pow_succ]
      linear_combination (9 / 10 : ℚ) * hy

/-- The geometric sequence `(9/10)^n * d` gets below every positive bound. -/
theorem geometric_small (d ε : ℚ) (hε : 0 < ε) :
    ∃ N : Nat, ∀ m : Nat, N ≤ m → (9 / 10 : ℚ) ^ m * |d| < ε := by
  have hpos : (0 : ℚ) < |d| + 1 := by positivity
  obtain ⟨N, hN⟩ := exists_pow_lt_of_lt_one (div_pos hε hpos) (by norm_num : (9 / 10 : ℚ) < 1)
  refine ⟨N, fun m hm => ?_⟩
  have h1 : (9 / 10 : ℚ) ^ m ≤ (9 / 10) ^ N :=
    pow_le_pow_of_le_one (by norm_num) (by norm_num) hm
  have h2 : (9 / 10 : ℚ) ^ m < ε / (|d| + 1) := lt_of_le_of_lt h1 hN
  have h3 : (9 / 10 : ℚ) ^ m * (|d| + 1) < ε := (lt_div_iff₀ hpos).mp h2
  have h4 : (0 : ℚ) ≤ (9 / 10) ^ m := by positivity
  nlinarith [abs_nonneg d]

/-- A sequence whose distance to `p` shrinks by the factor `9/10` each frame
eases toward `p`. -/
theorem easesToward_of_geometric (p : ℚ) (t : Nat → ℚ)
    (h : ∀ k : Nat, p - t k = (9 / 10) ^ k * (p - t 0)) (n : Nat) : EasesToward p t n := by
  have habs : ∀ k : Nat, |p - t k| = (9 / 10) ^ k * |p - t 0| := by
    intro k
    rw [h k, abs_mul, abs_of_nonneg (by positivity : (0 : ℚ) ≤ (9 / 10) ^ k)]
  have hpow : (0 : ℚ) < (9 / 10) ^ n := by positivity
  refine ⟨habs n, ?_, ?_, ?_, ?_⟩
  · rw [habs (n + 1), habs n, pow_succ]
    nlinarith [abs_nonneg (p - t 0)]
  · intro hne
    have hd : 0 < |p - t 0| := abs_pos.mpr (sub_ne_zero.mpr (Ne.symm hne))
    rw [habs (n + 1), habs n, pow_succ]
    nlinarith [mul_pos hpow hd]
  · intro ε hε
    obtain ⟨N, hN⟩ := geometric_small (p - t 0) ε hε
    exact ⟨N, fun m hm => by rw [habs m]; exact hN m hm⟩
  · rw [h n, sign_mul, sign_pos hpow, one_mul]

/-- C7: with the pointer held at `(mouseX, mouseY)`, after `n` runs of
`animateTrail` from any start, on each axis the distance of the trail to the
pointer is `0.9^n` times the initial distance, it is non-increasing in `n`,
strictly decreasing when the trail did not start on the pointer, it tends to 0,
and the trail never crosses to the other side of the pointer. -/
theorem trail_easing (s : TrailState) (n : Nat) :
    (frames n s).mouseX = s.mouseX ∧ (frames n s).mouseY = s.mouseY ∧
      EasesToward s.mouseX (fun k => (frames k s).trailX) n ∧
      EasesToward s.mouseY (fun k => (frames k s).trailY) n := by
  refine ⟨(frames_mouse n s).1, (frames_mouse n s).2, ?_, ?_⟩
  · exact easesToward_of_geometric _ _ (fun k => (frames_dist k s).1) n
  · exact easesToward_of_geometric _ _ (fun k => (frames_dist k s).2) n

/-! ## Theorems: `ThemeController` -/

theorem getItem_setItem (key value : String) (st : Storage) :
    Storage.getItem key (Storage.setItem key value st) = some value := by
  induction st with
  | nil => simp [Storage.setItem, Storage.getItem]
  | cons kv rest ih =>
    obtain ⟨k, v⟩ := kv
    by_cases hk : k = key
    · simp [Storage.setItem, Storage.getItem, hk]
    · simp [Storage.setItem, Storage.getItem, hk, ih]

theorem setItem_setItem (key v1 v2 : String) (st : Storage) :
    Storage.setItem key v2 (Storage.setItem key v1 st) = Storage.setItem key v2 st := by
  induction st with
  | nil => simp [Storage.setItem]
  | cons kv rest ih =>
    obtain ⟨k, v⟩ := kv
    by_cases hk : k = key
    · simp [Storage.setItem, hk]
    · simp [Storage.setItem, hk, ih]

theorem applyTheme_theme (c : ThemeController) : c.applyTheme.theme = c.theme := rfl

/-- Applying the theme a second time changes nothing. -/
theorem applyTheme_idem (c : ThemeController) : c.applyTheme.applyTheme = c.applyTheme := by
  simp [ThemeController.applyTheme, setItem_setItem, Option.map_map, Function.comp_def]

theorem toggleTheme_theme (c : ThemeController) :
    c.toggleTheme.theme = if c.theme = "light" then "dark" else "light" := rfl

theorem toggleTheme_stored (c : ThemeController) :
    c.toggleTheme.storage.getItem "theme" = some c.toggleTheme.theme := by
  simp [ThemeController.toggleTheme, ThemeController.applyTheme, getItem_setItem]

theorem toggles_succ (n : Nat) (c : ThemeController) :
    ThemeController.toggles (n + 1) c = (ThemeController.toggles n c).toggleTheme := by
  induction n generalizing c with
  | zero => rfl
  | succ n ih =>
    show ThemeController.toggles (n + 1) c.toggleTheme = _
    rw [ih c.toggleTheme]
    rfl

theorem toggleTheme_flag (c : ThemeController) :
    c.toggleTheme.theme = "light" ∨ c.toggleTheme.theme = "dark" := by
  rw [toggleTheme_theme]
  by_cases h : c.theme = "light"
  · right; simp [h]
  · left; simp [h]

theorem toggles_flag (n : Nat) (c : ThemeController) (h : 0 < n) :
    (ThemeController.toggles n c).theme = "light" ∨ (ThemeController.toggles n c).theme = "dark" := by
  obtain ⟨m, rfl⟩ : ∃ m, n = m + 1 := ⟨n - 1, by omega⟩
  rw [toggles_succ]
  exact toggleTheme_flag _

theorem toggles_flag_of_flag (n : Nat) (c : ThemeController)
    (h : c.theme = "light" ∨ c.theme = "dark") :
    (ThemeController.toggles n c).theme = "light" ∨ (ThemeController.toggles n c).theme = "dark" := by
  rcases Nat.eq_zero_or_pos n with h0 | hpos
  · subst h0; exact h
  · exact toggles_flag n c hpos

/-- C4, as stated, fails: with `'blue'` stored under `'theme'` and no toggle yet,
the flag is `'blue'`, neither `'light'` nor `'dark'`. -/
theorem theme_flag_stored_other :
    (ThemeController.toggles 0 (ThemeController.new "" none [("theme", "blue")])).theme = "blue" ∧
      ¬ ((ThemeController.toggles 0
            (ThemeController.new "" none [("theme", "blue")])).theme = "light" ∨
          (ThemeController.toggles 0
            (ThemeController.new "" none [("theme", "blue")])).theme = "dark") := by
  decide

/-- C4, amended: after construction and `n` calls of `toggleTheme` the flag is
`'light'` or `'dark'` whenever the store held no `'theme'` key, the empty string,
`'light'` or `'dark'`, and for every content of the store once `toggleTheme` has
been called at least once. -/
theorem theme_flag_enumerated (bodyClass : String) (icon : Option String) (storage : Storage)
    (n : Nat)
    (h : storage.getItem "theme" = none ∨ storage.getItem "theme" = some "" ∨
      storage.getItem "theme" = some "light" ∨ storage.getItem "theme" = some "dark" ∨ 0 < n) :
    (ThemeController.toggles n (ThemeController.new bodyClass icon storage)).theme = "light" ∨
      (ThemeController.toggles n (ThemeController.new bodyClass icon storage)).theme = "dark" := by
  rcases h with h | h | h | h | h
  · exact toggles_flag_of_flag n _ (Or.inl (by simp [ThemeController.new, applyTheme_theme, h, orDefault]))
  · exact toggles_flag_of_flag n _ (Or.inl (by simp [ThemeController.new, applyTheme_theme, h, orDefault]))
  · exact toggles_flag_of_flag n _ (Or.inl (by simp [ThemeController.new, applyTheme_theme, h, orDefault]))
  · exact toggles_flag_of_flag n _ (Or.inr (by simp [ThemeController.new, applyTheme_theme, h, orDefault]))
  · exact toggles_flag n _ h

theorem theme_flag_enumerated_witness :
    (ThemeController.toggles 1 (ThemeController.new "x" (some "y") [("theme", "blue")])).theme = "light" ∨
      (ThemeController.toggles 1 (ThemeController.new "x" (some "y") [("theme", "blue")])).theme = "dark" :=
  theme_flag_enumerated "x" (some "y") [("theme", "blue")] 1
    (Or.inr (Or.inr (Or.inr (Or.inr (by decide)))))

/-- C5: on a controller whose flag is `'light'` or `'dark'`, one `toggleTheme`
changes the flag to the other value, two leave the flag as it was and leave the
body class, the icon and the stored value as `applyTheme` derives them from that
flag; so on a controller that `applyTheme` has brought up to date (the last step
of the constructor and of every toggle) two toggles change nothing at all. -/
theorem toggleTheme_involution (c : ThemeController)
    (h : c.theme = "light" ∨ c.theme = "dark") :
    (c.theme = "light" → c.toggleTheme.theme = "dark") ∧
      (c.theme = "dark" → c.toggleTheme.theme = "light") ∧
      c.toggleTheme.theme ≠ c.theme ∧
      c.toggleTheme.toggleTheme.theme = c.theme ∧
      c.toggleTheme.toggleTheme = c.applyTheme ∧
      c.applyTheme.toggleTheme.toggleTheme = c.applyTheme ∧
      (c.applyTheme = c → c.toggleTheme.toggleTheme = c) := by
  have key : ∀ d : ThemeController, d.theme = "light" ∨ d.theme = "dark" →
      d.toggleTheme.toggleTheme = d.applyTheme := by
    intro d hd
    obtain ⟨theme, bodyClass, icon, storage⟩ := d
    simp only at hd
    rcases hd with hd | hd <;> subst hd <;>
      simp [ThemeController.toggleTheme, ThemeController.applyTheme, setItem_setItem,
        Option.map_map, Function.comp_def]
  refine ⟨?_, ?_, ?_, ?_, key c h, (key c.applyTheme h).trans (applyTheme_idem c),
    fun hc => (key c h).trans hc⟩
  · intro hl; simp [toggleTheme_theme, hl]
  · intro hd; simp [toggleTheme_theme, hd]
  · rcases h with h | h <;> simp [toggleTheme_theme, h]
  · rw [key c h]; rfl

theorem toggleTheme_involution_witness :
    (ThemeController.new "" (some "") []).toggleTheme.theme = "dark" ∧
      (ThemeController.new "" (some "") []).toggleTheme.toggleTheme
        = ThemeController.new "" (some "") [] :=
  ⟨(toggleTheme_involution (ThemeController.new "" (some "") []) (Or.inl (by decide))).1
      (by decide),
    (toggleTheme_involution (ThemeController.new "" (some "") []) (Or.inl (by decide))).2.2.2.2.2.2
      (by decide)⟩

theorem toggles_stored (n : Nat) (c : ThemeController)
    (h : c.storage.getItem "theme" = some c.theme) :
    (ThemeController.toggles n c).storage.getItem "theme" = some (ThemeController.toggles n c).theme := by
  cases n with
  | zero => exact h
  | succ m => rw [toggles_succ]; exact toggleTheme_stored _

/-- C6: after construction and after every `toggleTheme` call the value stored
under `'theme'` is the flag; when no key is stored at construction the flag is
`'light'` and `'light'` is what the constructor stores. -/
theorem theme_persisted (bodyClass : String) (icon : Option String) (storage : Storage) (n : Nat) :
    (ThemeController.toggles n (ThemeController.new bodyClass icon storage)).storage.getItem "theme"
        = some (ThemeController.toggles n (ThemeController.new bodyClass icon storage)).theme ∧
      (storage.getItem "theme" = none →
        (ThemeController.new bodyClass icon storage).theme = "light" ∧
        (ThemeController.new bodyClass icon storage).storage.getItem "theme" = some "light") := by
  have hnew : (ThemeController.new bodyClass icon storage).storage.getItem "theme"
      = some (ThemeController.new bodyClass icon storage).theme := by
    simp [ThemeController.new, ThemeController.applyTheme, getItem_setItem]
  refine ⟨toggles_stored n _ hnew, fun hnone => ?_⟩
  have hl : (ThemeController.new bodyClass icon storage).theme = "light" := by
    simp [ThemeController.new, applyTheme_theme, hnone, orDefault]
  exact ⟨hl, by rw [hnew, hl]⟩

theorem theme_persisted_witness :
    (ThemeController.toggles 3 (ThemeController.new "" none [("lang", "en")])).storage.getItem "theme"
        = some (ThemeController.toggles 3 (ThemeController.new "" none [("lang", "en")])).theme ∧
      (ThemeController.new "" none [("lang", "en")]).theme = "light" ∧
      (ThemeController.new "" none [("lang", "en")]).storage.getItem "theme" = some "light" :=
  ⟨(theme_persisted "" none [("lang", "en")] 3).1,
    (theme_persisted "" none [("lang", "en")] 3).2 (by decide)⟩

/-! ## Theorems: `TypingEffect` -/

theorem take_append_charAt (text : JsString) (i : Nat) :
    text.take i ++ charAt text i = text.take (i + 1) := by
  unfold charAt
  rw [List.take_succ, List.get?_eq_getElem?]
  cases text[i]? <;> rfl

/-- While characters remain, `j` ticks from a state with index `i` and one timer
pending lead to index `i + j`, with one timer pending again. -/
theorem typing_ticks (text : JsString) (speed j i now id due : Nat)
    (hi : i + j ≤ text.length) (hdue : now ≤ due) :
    runTicks TypingEffect.typing j
        ⟨now, id + 1, [⟨id, due, TypingCb.typing⟩], ⟨text, speed, i, text.take i, i⟩⟩
      = ⟨if j = 0 then now else due + (j - 1) * speed, id + j + 1,
          [⟨id + j, due + j * speed, TypingCb.typing⟩],
          ⟨text, speed, i + j, text.take (i + j), i + j⟩⟩ := by
  induction j generalizing i now id due with
  | zero => simp [runTicks]
  | succ j ih =>
    have hlt : i < text.length := by omega
    have hstep : runTicks TypingEffect.typing (j + 1)
        ⟨now, id + 1, [⟨id, due, TypingCb.typing⟩], ⟨text, speed, i, text.take i, i⟩⟩
        = runTicks TypingEffect.typing j
          ⟨due, id + 1 + 1, [⟨id + 1, due + speed, TypingCb.typing⟩],
            ⟨text, speed, i + 1, text.take (i + 1), i + 1⟩⟩ := by
      simp [runTicks, earliest, TypingEffect.typing, setTimeout, hlt, take_append_charAt,
        Nat.max_eq_right hdue]
    rw [hstep, ih (i + 1) due (id + 1) (due + speed) (by omega) (by omega)]
    have e1 : i + 1 + j = i + (j + 1) := by omega
    have e2 : id + 1 + j = id + (j + 1) := by omega
    have e3 : due + speed + j * speed = due + (j + 1) * speed := by ring
    have e4 : (if j = 0 then due else due + speed + (j - 1) * speed) = due + j * speed := by
      rcases Nat.eq_zero_or_pos j with h0 | hpos
      · simp [h0]
      · obtain ⟨m, rfl⟩ : ∃ m, j = m + 1 := ⟨j - 1, by omega⟩
        simp
        ring
    simp [e1, e2, e3, e4]

/-- The tick that finds the index at the end of the text changes nothing but the
tick count and sets no timer; later there is nothing to run. -/
theorem typing_last_tick (text : JsString) (speed j now id due : Nat) (hdue : now ≤ due) :
    runTicks TypingEffect.typing (j + 1)
        ⟨now, id + 1, [⟨id, due, TypingCb.typing⟩],
          ⟨text, speed, text.length, text, text.length⟩⟩
      = ⟨due, id + 1, [], ⟨text, speed, text.length, text, text.length + 1⟩⟩ := by
  have hstep : runTicks TypingEffect.typing (j + 1)
      ⟨now, id + 1, [⟨id, due, TypingCb.typing⟩],
        ⟨text, speed, text.length, text, text.length⟩⟩
      = runTicks TypingEffect.typing j
          ⟨due, id + 1, [], ⟨text, speed, text.length, text, text.length + 1⟩⟩ := by
    simp [runTicks, earliest, TypingEffect.typing, Nat.max_eq_right hdue]
  rw [hstep]
  cases j <;> simp [runTicks, earliest]

theorem runTicks_idle {κ σ : Type} (handler : κ → World κ σ → World κ σ) (k : Nat)
    (w : World κ σ) (h : earliest w.timers = none) : runTicks handler k w = w := by
  cases k <;> simp [runTicks, h]

theorem runTicks_add {κ σ : Type} (handler : κ → World κ σ → World κ σ) (a b : Nat)
    (w : World κ σ) : runTicks handler (a + b) w = runTicks handler b (runTicks handler a w) := by
  induction a generalizing w with
  | zero => simp [runTicks]
  | succ a ih =>
    rw [Nat.add_right_comm]
    cases h : earliest w.timers with
    | none => rw [runTicks_idle handler _ w h, runTicks_idle handler _ w h, runTicks_idle handler _ w h]
    | some t => simp only [runTicks, h]; exact ih _

theorem typing_started (content text : JsString) (speed : Nat) :
    TypingEffect.started content text speed
      = ⟨0, 1 + 1, [⟨1, 500, TypingCb.typing⟩], ⟨text, speed, 0, text.take 0, 0⟩⟩ := rfl

/-- The whole state after `k` ticks, `k` at most the length of the text. -/
theorem typing_typing (content text : JsString) (speed k : Nat) (hk : k ≤ text.length) :
    runTicks TypingEffect.typing k (TypingEffect.started content text speed)
      = ⟨if k = 0 then 0 else 500 + (k - 1) * speed, k + 2,
          [⟨k + 1, 500 + k * speed, TypingCb.typing⟩], ⟨text, speed, k, text.take k, k⟩⟩ := by
  rw [typing_started, typing_ticks text speed k 0 0 1 500 (by omega) (by omega)]
  have e1 : 1 + k + 1 = k + 2 := by omega
  have e2 : 1 + k = k + 1 := by omega
  simp [e1, e2]

/-- The whole state after `k` ticks, `k` more than the length of the text. -/
theorem typing_done (content text : JsString) (speed k : Nat) (hk : text.length < k) :
    runTicks TypingEffect.typing k (TypingEffect.started content text speed)
      = ⟨500 + text.length * speed, text.length + 2, [],
          ⟨text, speed, text.length, text, text.length + 1⟩⟩ := by
  obtain ⟨m, rfl⟩ : ∃ m, k = text.length + (m + 1) := ⟨k - text.length - 1, by omega⟩
  rw [runTicks_add, typing_typing content text speed text.length (Nat.le_refl _)]
  have h := typing_last_tick text speed m (if text.length = 0 then 0 else 500 + (text.length - 1) * speed)
    (text.length + 1) (500 + text.length * speed) (by
      split
      · omega
      · have : (text.length - 1) * speed ≤ text.length * speed :=
          Nat.mul_le_mul_right _ (Nat.sub_le _ _)
        omega)
  simpa using h

/-- C8: on a fresh `TypingEffect` after one `start()`, for every text of length
`n` and every `k`, after `k` ticks the element shows the first `min k n` units of
the text and the index is `min k n`; from tick `n` on it shows the whole text;
`min k (n + 1)` runs of `typing` have happened, a timer is pending exactly while
`k ≤ n`, so exactly `n + 1` ticks run; tick `j` runs at `500 + (j - 1) * speed` ms. -/
theorem typing_reveals (content text : JsString) (speed k : Nat) :
    (runTicks TypingEffect.typing k (TypingEffect.started content text speed)).st.textContent
        = text.take (min k text.length) ∧
      (runTicks TypingEffect.typing k (TypingEffect.started content text speed)).st.index
        = min k text.length ∧
      (text.length ≤ k →
        (runTicks TypingEffect.typing k (TypingEffect.started content text speed)).st.textContent
          = text) ∧
      (runTicks TypingEffect.typing k (TypingEffect.started content text speed)).st.ticks
        = min k (text.length + 1) ∧
      ((runTicks TypingEffect.typing k (TypingEffect.started content text speed)).timers = []
        ↔ text.length < k) ∧
      (runTicks TypingEffect.typing k (TypingEffect.started content text speed)).now
        = (if k = 0 then 0 else 500 + (min k (text.length + 1) - 1) * speed) := by
  rcases Nat.lt_or_ge text.length k with hk | hk
  · rw [typing_done content text speed k hk]
    have h1 : min k text.length = text.length := by omega
    have h2 : min k (text.length + 1) = text.length + 1 := by omega
    have h3 : k ≠ 0 := by omega
    simp [h1, h2, h3, hk]
  · rw [typing_typing content text speed k hk]
    have h1 : min k text.length = k := by omega
    have h2 : min k (text.length + 1) = k := by omega
    refine ⟨by simp [h1], by simp [h1], ?_, by simp [h2], by simp; omega, by simp [h2]⟩
    intro hle
    have : k = text.length := by omega
    subst this
    simp

theorem typing_reveals_witness :
    (runTicks TypingEffect.typing 8
        (TypingEffect.started [74, 111, 101] [74, 97, 110, 101, 32, 68, 111, 101] 150)).st.textContent
      = [74, 97, 110, 101, 32, 68, 111, 101] :=
  (typing_reveals [74, 111, 101] [74, 97, 110, 101, 32, 68, 111, 101] 150 8).2.2.1 (by decide)

/-! ## Theorems: `Utils.debounce` -/

/-- A burst of calls, each less than `wait` ms after the one before, on a wrapper
whose timer is armed: the timer of the last call is the only one left and `func`
has not run. -/
theorem debounce_burst {α υ : Type} (func : α → υ → υ) (wait fuel : Nat)
    (cs : List (Nat × α)) (t : Nat) (a : α) (i : Nat) (u : υ)
    (hchain : List.Chain (fun p q : Nat × α => p.1 ≤ q.1 ∧ q.1 < p.1 + wait) (t, a) cs) :
    runCalls (Debounce.later func) (Debounce.executedFunction wait) fuel cs
        ⟨t, i + 1, [⟨i, t + wait, DebounceCb.later a⟩], ⟨some i, u, []⟩⟩
      = some ⟨(((t, a) :: cs).getLast (List.cons_ne_nil _ _)).1, i + cs.length + 1,
          [⟨i + cs.length, (((t, a) :: cs).getLast (List.cons_ne_nil _ _)).1 + wait,
            DebounceCb.later (((t, a) :: cs).getLast (List.cons_ne_nil _ _)).2⟩],
          ⟨some (i + cs.length), u, []⟩⟩ := by
  induction cs generalizing t a i with
  | nil => simp [runCalls]
  | cons c rest ih =>
    obtain ⟨t1, a1⟩ := c
    rw [List.chain_cons] at hchain
    obtain ⟨⟨h1, h2⟩, hrest⟩ := hchain
    simp only at h1 h2
    have hadv : advanceTo (Debounce.later func) fuel t1
        ⟨t, i + 1, [⟨i, t + wait, DebounceCb.later a⟩], ⟨some i, u, []⟩⟩
        = some ⟨t1, i + 1, [⟨i, t + wait, DebounceCb.later a⟩], ⟨some i, u, []⟩⟩ := by
      unfold advanceTo
      simp [earliest, Nat.not_le.mpr h2, Nat.max_eq_right h1]
    have hcall : Debounce.executedFunction wait a1
        (⟨t1, i + 1, [⟨i, t + wait, DebounceCb.later a⟩], ⟨some i, u, []⟩⟩ :
          World (DebounceCb α) (DebounceState α υ))
        = ⟨t1, i + 1 + 1, [⟨i + 1, t1 + wait, DebounceCb.later a1⟩], ⟨some (i + 1), u, []⟩⟩ := by
      simp [Debounce.executedFunction, clearTimeout, setTimeout]
    simp only [runCalls, hadv, hcall]
    rw [ih t1 a1 (i + 1) hrest]
    have e : i + 1 + rest.length = i + (rest.length + 1) := by omega
    simp [e, List.getLast_cons_cons]

/-- The trace of a burst up to its last call. -/
theorem debounce_calls {α υ : Type} (func : α → υ → υ) (wait fuel : Nat)
    (c : Nat × α) (cs : List (Nat × α)) (u : υ)
    (hchain : List.Chain (fun p q : Nat × α => p.1 ≤ q.1 ∧ q.1 < p.1 + wait) c cs) :
    runCalls (Debounce.later func) (Debounce.executedFunction wait) fuel (c :: cs)
        (World.init { timeout := none, user := u, log := [] })
      = some ⟨((c :: cs).getLast (List.cons_ne_nil _ _)).1, cs.length + 2,
          [⟨cs.length + 1, ((c :: cs).getLast (List.cons_ne_nil _ _)).1 + wait,
            DebounceCb.later ((c :: cs).getLast (List.cons_ne_nil _ _)).2⟩],
          ⟨some (cs.length + 1), u, []⟩⟩ := by
  obtain ⟨t, a⟩ := c
  have hadv : advanceTo (Debounce.later func) fuel t
      (World.init { timeout := none, user := u, log := [] } :
        World (DebounceCb α) (DebounceState α υ))
      = some ⟨t, 1, [], ⟨none, u, []⟩⟩ := by
    unfold advanceTo
    simp [World.init, earliest]
  have hcall : Debounce.executedFunction wait a
      (⟨t, 1, [], ⟨none, u, []⟩⟩ : World (DebounceCb α) (DebounceState α υ))
      = ⟨t, 1 + 1, [⟨1, t + wait, DebounceCb.later a⟩], ⟨some 1, u, []⟩⟩ := by
    simp [Debounce.executedFunction, clearTimeout, setTimeout]
  simp only [runCalls, hadv, hcall]
  rw [debounce_burst func wait fuel cs t a 1 u hchain]
  have e1 : 1 + cs.length + 1 = cs.length + 2 := by omega
  have e2 : 1 + cs.length = cs.length + 1 := by omega
  simp [e1, e2]

/-- C1: for every `func`, every `wait` and every non-empty sequence of calls to
one wrapper in which each call comes less than `wait` ms after the one before,
the event loop (with room for one callback) run up to any time `horizon` ends,
and `func` has then been invoked exactly once, at the time of the last call plus
`wait` and with the arguments of the last call, if that time has come, and not at
all before. -/
theorem debounce_fires_once {α υ : Type} (func : α → υ → υ) (wait : Nat)
    (c : Nat × α) (cs : List (Nat × α))
    (hchain : List.Chain (fun p q : Nat × α => p.1 ≤ q.1 ∧ q.1 < p.1 + wait) c cs)
    (fuel : Nat) (hfuel : 0 < fuel) (horizon : Nat) (u0 : υ) :
    ∃ w, Debounce.run func wait fuel (c :: cs) horizon u0 = some w ∧
      w.st.log = (if ((c :: cs).getLast (List.cons_ne_nil _ _)).1 + wait ≤ horizon then
          [(((c :: cs).getLast (List.cons_ne_nil _ _)).1 + wait,
            ((c :: cs).getLast (List.cons_ne_nil _ _)).2)]
        else []) ∧
      w.st.user = (if ((c :: cs).getLast (List.cons_ne_nil _ _)).1 + wait ≤ horizon then
          func ((c :: cs).getLast (List.cons_ne_nil _ _)).2 u0
        else u0) ∧
      (w.timers = [] ↔ ((c :: cs).getLast (List.cons_ne_nil _ _)).1 + wait ≤ horizon) := by
  obtain ⟨f, rfl⟩ : ∃ f, fuel = f + 1 := ⟨fuel - 1, by omega⟩
  unfold Debounce.run
  rw [debounce_calls func wait (f + 1) c cs u0 hchain]
  generalize (c :: cs).getLast (List.cons_ne_nil _ _) = last
  by_cases hT : last.1 + wait ≤ horizon
  · simp only [hT, if_true]
    unfold advanceTo
    simp only [earliest, hT, if_true]
    unfold advanceTo
    simp [Debounce.later, invokeDebounced, clearTimeout, earliest]
  · simp only [hT, if_false]
    unfold advanceTo
    simp [earliest, hT]

theorem debounce_fires_once_witness :
    ∃ w, Debounce.run (fun (a : String) (u : List String) => a :: u) 250 1
        [(0, "first"), (50, "second"), (100, "third")] 1000 [] = some w ∧
      w.st.log = [(350, "third")] ∧ w.st.user = ["third"] ∧ w.timers = [] := by
  have h := debounce_fires_once (fun (a : String) (u : List String) => a :: u) 250
    (0, "first") [(50, "second"), (100, "third")] (by simp) 1 (by decide) 1000 []
  simpa using h

/-! ## Theorems: `Utils.throttle` -/

/-- Running the event loop keeps the invariant, the record and the state
of `func`; afterwards a timer still pending is not yet due. -/
theorem throttle_advance {α υ : Type} (func : α → υ → υ) (limit : Nat) (u0 : υ)
    (w : World ThrottleCb (ThrottleState α υ)) (last : Option Nat) (fuel t : Nat)
    (hfuel : 0 < fuel) (hinv : ThrottleInv func limit u0 w last) :
    ∃ w1, advanceTo Throttle.reset fuel t w = some w1 ∧ w1.now = max w.now t ∧
      w1.st.log = w.st.log ∧ ThrottleInv func limit u0 w1 last ∧
      (w1.st.inThrottle.truthy = true → ∀ l, last = some l → t < l + limit) := by
  obtain ⟨now, nextId, timers, ⟨flag, user, log⟩⟩ := w
  obtain ⟨f, rfl⟩ : ∃ f, fuel = f + 1 := ⟨fuel - 1, by omega⟩
  obtain ⟨huser, hshape⟩ := hinv
  simp only at huser
  rcases hshape with ⟨htm, hflag, hlast⟩ | ⟨id, l, htm, hflag, hlast, hnow⟩
  · simp only at htm hflag hlast
    subst htm
    refine ⟨⟨max now t, nextId, [], ⟨flag, user, log⟩⟩, ?_, rfl, rfl, ⟨huser, Or.inl ⟨rfl, hflag, ?_⟩⟩, ?_⟩
    · unfold advanceTo
      simp [earliest]
    · intro l hl
      exact le_trans (hlast l hl) (le_max_left _ _)
    · intro h
      simp only at h
      rw [hflag] at h
      exact absurd h (by decide)
  · simp only at htm hflag hlast hnow
    subst htm hflag hlast
    by_cases hdue : l + limit ≤ t
    · refine ⟨⟨max (max now (l + limit)) t, nextId, [], ⟨some false, user, log⟩⟩, ?_, ?_, rfl,
        ⟨huser, Or.inl ⟨rfl, rfl, ?_⟩⟩, ?_⟩
      · unfold advanceTo
        simp only [earliest, hdue, if_true]
        unfold advanceTo
        simp [Throttle.reset, earliest]
      · simp only
        omega
      · intro l1 hl1
        simp only [Option.some.injEq] at hl1
        subst hl1
        simp only
        omega
      · intro h
        simp [JsFlag.truthy] at h
    · refine ⟨⟨max now t, nextId, [⟨id, l + limit, ThrottleCb.reset⟩], ⟨some true, user, log⟩⟩,
        ?_, rfl, rfl, ⟨huser, Or.inr ⟨id, l, rfl, rfl, rfl, ?_⟩⟩, ?_⟩
      · unfold advanceTo
        simp [earliest, hdue]
      · simp only
        omega
      · intro _ l1 hl1
        simp only [Option.some.injEq] at hl1
        subst hl1
        omega

/-- A call of the wrapper while `inThrottle` is falsy, with a `func` that returns:
`func` runs, the flag is set and the reset timer queued. -/
theorem throttle_dispatch_open {α υ : Type} (func : α → υ → υ) (limit depth : Nat) (a : α)
    (now nextId : Nat) (flag : JsFlag) (user : υ) (log : List (Nat × α))
    (hflag : flag.truthy = false) :
    Throttle.dispatch (returning func) limit depth a
        (⟨now, nextId, [], ⟨flag, user, log⟩⟩ : World ThrottleCb (ThrottleState α υ))
      = ⟨now, nextId + 1, [⟨nextId, now + limit, ThrottleCb.reset⟩],
          ⟨some true, func a user, log ++ [(now, a)]⟩⟩ := by
  unfold Throttle.dispatch Throttle.wrapper
  simp [hflag, returning, setTimeout, Completion.world]

/-- A call of the wrapper while `inThrottle` is `true` changes nothing. -/
theorem throttle_dispatch_shut {α υ : Type} (func : α → υ → Outcome α υ) (limit depth : Nat)
    (a : α) (now nextId : Nat) (timers : List (Timer ThrottleCb)) (user : υ)
    (log : List (Nat × α)) :
    Throttle.dispatch func limit depth a
        (⟨now, nextId, timers, ⟨some true, user, log⟩⟩ : World ThrottleCb (ThrottleState α υ))
      = ⟨now, nextId, timers, ⟨some true, user, log⟩⟩ := by
  unfold Throttle.dispatch Throttle.wrapper
  simp [JsFlag.truthy, Completion.world]

/-- On a trace of calls in time order, with a `func` that returns, the record of
invocations grows by what the contract `throttleSpec` says, and the invariant is kept. -/
theorem throttle_calls {α υ : Type} (func : α → υ → υ) (limit depth : Nat) (u0 : υ) (fuel : Nat)
    (hfuel : 0 < fuel) (cs : List (Nat × α)) (w : World ThrottleCb (ThrottleState α υ))
    (last : Option Nat) (hinv : ThrottleInv func limit u0 w last)
    (hsorted : cs.Pairwise (fun p q => p.1 ≤ q.1)) (hnow : ∀ q ∈ cs, w.now ≤ q.1) :
    ∃ w1 last1,
      runCalls Throttle.reset (Throttle.dispatch (returning func) limit depth) fuel cs w
        = some w1 ∧
      w1.st.log = w.st.log ++ throttleSpec limit last cs ∧
      ThrottleInv func limit u0 w1 last1 := by
  induction cs generalizing w last with
  | nil => exact ⟨w, last, rfl, by simp [throttleSpec], hinv⟩
  | cons c rest ih =>
    obtain ⟨t, a⟩ := c
    rw [List.pairwise_cons] at hsorted
    obtain ⟨hhead, hrest⟩ := hsorted
    have hwt : w.now ≤ t := hnow (t, a) (List.mem_cons_self _ _)
    obtain ⟨w1, hadv, hnow1, hlog1, hinv1, harmed⟩ :=
      throttle_advance func limit u0 w last fuel t hfuel hinv
    rw [Nat.max_eq_right hwt] at hnow1
    obtain ⟨now1, nextId1, timers1, ⟨flag1, user1, log1⟩⟩ := w1
    simp only at hnow1 hlog1 harmed
    subst hnow1 hlog1
    obtain ⟨huser, hshape⟩ := hinv1
    simp only at huser
    rcases hshape with ⟨htm, hflag, hlast⟩ | ⟨id, l, htm, hflag, hlast, hle⟩
    · simp only at htm hflag hlast
      subst htm
      have hspec : throttleSpec limit last ((now1, a) :: rest)
          = (now1, a) :: throttleSpec limit (some now1) rest := by
        cases last with
        | none => rfl
        | some l =>
          have := hlast l rfl
          simp [throttleSpec, Nat.not_lt.mpr this]
      have hcall := throttle_dispatch_open func limit depth a now1 nextId1 flag1 user1 w.st.log hflag
      obtain ⟨w2, last2, hrun, hlog2, hinv2⟩ := ih
        (⟨now1, nextId1 + 1, [⟨nextId1, now1 + limit, ThrottleCb.reset⟩],
          ⟨some true, func a user1, w.st.log ++ [(now1, a)]⟩⟩ :
            World ThrottleCb (ThrottleState α υ)) (some now1)
        ⟨by simp [huser], Or.inr ⟨nextId1, now1, rfl, rfl, rfl, Nat.le_refl _⟩⟩ hrest
        (fun q hq => hhead q hq)
      refine ⟨w2, last2, ?_, ?_, hinv2⟩
      · simp only [runCalls, hadv, hcall]
        exact hrun
      · rw [hlog2, hspec]
        simp
    · simp only at htm hflag hlast hle
      subst htm hflag hlast
      have hlt : now1 < l + limit := harmed rfl l rfl
      have hspec : throttleSpec limit (some l) ((now1, a) :: rest)
          = throttleSpec limit (some l) rest := by
        simp [throttleSpec, hlt]
      have hcall := throttle_dispatch_shut (returning func) limit depth a now1 nextId1
        [⟨id, l + limit, ThrottleCb.reset⟩] user1 w.st.log
      obtain ⟨w2, last2, hrun, hlog2, hinv2⟩ := ih
        (⟨now1, nextId1, [⟨id, l + limit, ThrottleCb.reset⟩], ⟨some true, user1, w.st.log⟩⟩ :
            World ThrottleCb (ThrottleState α υ)) (some l)
        ⟨huser, Or.inr ⟨id, l, rfl, rfl, rfl, hle⟩⟩ hrest (fun q hq => hhead q hq)
      refine ⟨w2, last2, ?_, ?_, hinv2⟩
      · simp only [runCalls, hadv, hcall]
        exact hrun
      · rw [hlog2, hspec]

/-- The whole run of a `throttle` wrapper around a `func` that returns, against
the contract. -/
theorem throttle_run {α υ : Type} (func : α → υ → υ) (limit depth : Nat) (u0 : υ) (fuel : Nat)
    (hfuel : 0 < fuel) (calls : List (Nat × α)) (horizon : Nat)
    (hsorted : calls.Pairwise (fun p q => p.1 ≤ q.1)) :
    ∃ w, Throttle.run (returning func) limit depth fuel calls horizon u0 = some w ∧
      w.st.log = throttleSpec limit none calls ∧
      w.st.user = (throttleSpec limit none calls).foldl (fun u e => func e.2 u) u0 := by
  obtain ⟨w1, last1, hrun, hlog, hinv⟩ := throttle_calls func limit depth u0 fuel hfuel calls
    (World.init { inThrottle := none, user := u0, log := [] }) none
    ⟨rfl, Or.inl ⟨rfl, rfl, fun l hl => by cases hl⟩⟩ hsorted
    (fun q _ => Nat.zero_le _)
  obtain ⟨w2, hadv, _, hlog2, hinv2, _⟩ :=
    throttle_advance func limit u0 w1 last1 fuel horizon hfuel hinv
  refine ⟨w2, ?_, ?_, ?_⟩
  · unfold Throttle.run
    rw [hrun]
    exact hadv
  · rw [hlog2, hlog]
    simp [World.init]
  · rw [hinv2.1, hlog2, hlog]
    simp [World.init]

/-- The invocations of the contract are at least `limit` ms apart, and at least
`limit` ms after the time `last` of the invoking call before them. -/
theorem throttleSpec_apart {α : Type} (limit : Nat) (cs : List (Nat × α)) (last : Option Nat) :
    (∀ e ∈ throttleSpec limit last cs, ∀ l, last = some l → l + limit ≤ e.1) ∧
      (throttleSpec limit last cs).Pairwise (fun p q => p.1 + limit ≤ q.1) := by
  induction cs generalizing last with
  | nil => simp [throttleSpec]
  | cons c rest ih =>
    obtain ⟨t, a⟩ := c
    have hkeep : (∀ e ∈ (t, a) :: throttleSpec limit (some t) rest,
          ∀ l, last = some l → l + limit ≤ t → l + limit ≤ e.1) ∧
        ((t, a) :: throttleSpec limit (some t) rest).Pairwise (fun p q => p.1 + limit ≤ q.1) := by
      obtain ⟨h1, h2⟩ := ih (some t)
      refine ⟨?_, List.pairwise_cons.mpr ⟨fun e he => h1 e he t rfl, h2⟩⟩
      intro e he l _ hle
      rcases List.mem_cons.mp he with rfl | he
      · exact hle
      · have := h1 e he t rfl
        omega
    cases last with
    | none =>
      refine ⟨fun e _ l hl => (nomatch hl), ?_⟩
      simpa [throttleSpec] using hkeep.2
    | some l =>
      by_cases hlt : t < l + limit
      · simpa [throttleSpec, hlt] using ih (some l)
      · refine ⟨?_, by simpa [throttleSpec, hlt] using hkeep.2⟩
        intro e he l1 hl1
        have he1 : e ∈ (t, a) :: throttleSpec limit (some t) rest := by
          simpa [throttleSpec, hlt] using he
        exact hkeep.1 e he1 l1 hl1 (by cases hl1; omega)

/-- C2, as stated, fails for a `func` that does not simply return, since the
wrapper sets `inThrottle` only after `func` has returned. With limit 16: when
`func` throws on the call at t=0, the call at t=10 invokes `func` again, where the
contract has one invocation; when `func` calls the wrapper from inside the call at
t=0, that inner call invokes `func` too, 0 ms after the invoking call. -/
theorem throttle_open_during_func :
    (∃ w, Throttle.run
          (fun (a : String) (u : List String) =>
            if a = "a" then Outcome.threw u else Outcome.returned (a :: u))
          16 8 1 [(0, "a"), (10, "b")] 20 [] = some w ∧
        w.st.log = [(0, "a"), (10, "b")] ∧
        throttleSpec 16 none [(0, "a"), (10, "b")] = [(0, "a")]) ∧
      (∃ w, Throttle.run
          (fun (a : String) (u : List String) =>
            if a = "a" then Outcome.reentered (a :: u) "b" else Outcome.returned (a :: u))
          16 8 1 [(0, "a")] 0 [] = some w ∧
        w.st.log = [(0, "a"), (0, "b")]) :=
  ⟨⟨_, rfl, rfl, rfl⟩, ⟨_, rfl, rfl⟩⟩

/-- C2, amended: for every `func` that returns (it neither throws nor calls the
wrapper), every `limit > 0` and every trace of calls to one wrapper in time order,
the event loop run up to any time `horizon` ends, and the invocations of `func`,
with their times and arguments, are then exactly those of the contract
`throttleSpec`: the first call invokes at once with its own arguments, a call made
less than `limit` ms after the last invoking call invokes neither then nor later,
and the next call made `limit` ms or more after it invokes again; so any two
invocations are at least `limit` ms apart. -/
theorem throttle_contract {α υ : Type} (func : α → υ → υ) (limit : Nat) (hlimit : 0 < limit)
    (calls : List (Nat × α)) (hsorted : calls.Pairwise (fun p q => p.1 ≤ q.1))
    (depth fuel : Nat) (hfuel : 0 < fuel) (horizon : Nat) (u0 : υ) :
    ∃ w, Throttle.run (returning func) limit depth fuel calls horizon u0 = some w ∧
      w.st.log = throttleSpec limit none calls ∧
      w.st.log.head? = calls.head? ∧
      w.st.log.Pairwise (fun p q => p.1 < q.1 ∧ p.1 + limit ≤ q.1) ∧
      w.st.user = (throttleSpec limit none calls).foldl (fun u e => func e.2 u) u0 := by
  obtain ⟨w, hrun, hlog, huser⟩ :=
    throttle_run func limit depth u0 fuel hfuel calls horizon hsorted
  refine ⟨w, hrun, hlog, ?_, ?_, huser⟩
  · rw [hlog]
    cases calls with
    | nil => rfl
    | cons c cs => rfl
  · rw [hlog]
    exact (throttleSpec_apart limit calls none).2.imp (fun h => ⟨by omega, h⟩)

theorem throttle_contract_witness :
    ∃ w, Throttle.run (returning (fun (a : String) (u : List String) => a :: u)) 100 0 1
        [(0, "a"), (40, "b"), (99, "c"), (100, "d"), (150, "e"), (260, "f")] 1000 [] = some w ∧
      w.st.log = [(0, "a"), (100, "d"), (260, "f")] ∧
      w.st.user = ["f", "d", "a"] := by
  have h := throttle_contract (fun (a : String) (u : List String) => a :: u) 100 (by decide)
    [(0, "a"), (40, "b"), (99, "c"), (100, "d"), (150, "e"), (260, "f")] (by simp) 0 1
    (by decide) 1000 []
  obtain ⟨w, h1, h2, _, _, h4⟩ := h
  exact ⟨w, h1, by simpa [throttleSpec] using h2, by simpa [throttleSpec] using h4⟩

/-- C3, as stated, fails: on calls at t=0, t=10 and t=20 with limit 16 the call
at t=20 is not suppressed; `func` is invoked twice, at t=0 and at t=20. -/
theorem throttle_trace_second_fire :
    ∃ w, Throttle.run (returning (fun (a : String) (u : List String) => a :: u)) 16 0 1
        [(0, "a"), (10, "b"), (20, "c")] 20 [] = some w ∧
      w.st.log = [(0, "a"), (20, "c")] ∧ w.st.log.length ≠ 1 :=
  ⟨_, rfl, rfl, by decide⟩

/-- C3, amended: on calls to one wrapper at t=0, t=10 and t=20 with limit 16,
`func` fires at t=0, the call at t=10 is suppressed, and the call at t=20, made
after the limit has expired at t=16, fires again: `func` is invoked exactly twice
over the trace. -/
theorem throttle_trace {α υ : Type} (func : α → υ → υ) (a b c : α)
    (depth fuel horizon : Nat) (u0 : υ) :
    ∃ w, Throttle.run (returning func) 16 depth (fuel + 1) [(0, a), (10, b), (20, c)] horizon u0
        = some w ∧
      w.st.log = [(0, a), (20, c)] ∧ w.st.log.length = 2 ∧
      w.st.user = func c (func a u0) := by
  obtain ⟨w, hrun, hlog, huser⟩ := throttle_run func 16 depth u0 (fuel + 1) (Nat.succ_pos _)
    [(0, a), (10, b), (20, c)] horizon (by simp)
  have hspec : throttleSpec 16 none [(0, a), (10, b), (20, c)] = [(0, a), (20, c)] := by
    simp [throttleSpec]
  rw [hspec] at hlog huser
  exact ⟨w, hrun, hlog, by rw [hlog]; rfl, by simpa using huser⟩

end Script
